import Mathlib

/-!
Verification development for the video-analysis agent pipeline
(`video_analysis_agent.py`): a shallow embedding of the log-parsing,
LLM-response parsing and report-rendering code, together with theorems
about the behaviour the specification describes.

Python values that can occur in a JSON document are modelled by `JValue`;
fallible Python code (code that can raise) is modelled in the
`Except String` monad, the error string naming the Python exception.
-/

/-- JSON/Python value: the result of `json.load`/`json.loads`.
Numbers keep their source token (their numeric value is never inspected
by the program); objects are association lists in insertion order. -/
inductive JValue where
  | str (s : String)
  | num (raw : String)
  | bool (b : Bool)
  | null
  | arr (xs : List JValue)
  | obj (fields : List (String × JValue))

/-- Key lookup in an object, first (and by construction only) occurrence:
models Python `dict` access on a dict built by the JSON parser. -/
def lookupJ : List (String × JValue) → String → Option JValue
  | [], _ => none
  | (k, v) :: rest, key => if k = key then some v else lookupJ rest key

def removeKey (k : String) : List (String × JValue) → List (String × JValue)
  | [] => []
  | (k', v') :: rest => if k' = k then removeKey k rest else (k', v') :: removeKey k rest

/-- Prepend a member the way CPython dicts do: a repeated key keeps its
first position but takes the later value (`fs` holds the later members). -/
def addMember (k : String) (v : JValue) (fs : List (String × JValue)) :
    List (String × JValue) :=
  match lookupJ fs k with
  | some v' => (k, v') :: removeKey k fs
  | none => (k, v) :: fs

/-- Python `==` between an optional JSON value (a `dict.get` result) and a
string literal: true exactly when the value is that string. -/
def eqStrOpt : Option JValue → String → Bool
  | some (.str s), t => s = t
  | _, _ => false

/-- Python truthiness of a JSON value (`if plan_text:`). For numbers the
token is inspected: a mantissa of zeros (e.g. `0`, `0.0`, `0e5`) is falsy. -/
def truthy : JValue → Bool
  | .str s => !(s = "")
  | .num raw => (raw.data.takeWhile (fun c => !(c = 'e') && !(c = 'E'))).any
      (fun c => c.isDigit && !(c = '0'))
  | .bool b => b
  | .null => false
  | .arr xs => !xs.isEmpty
  | .obj fs => !fs.isEmpty

def isObjB : JValue → Bool
  | .obj _ => true
  | _ => false

def isArrB : JValue → Bool
  | .arr _ => true
  | _ => false

/-- The whitespace set of Python `str.strip()` (ASCII fragment). -/
def isPyWs (c : Char) : Bool :=
  c = ' ' || c = '\t' || c = '\n' || c = '\r' || c = '\x0b' || c = '\x0c'

/-- JSON inter-token whitespace (`json.loads`): space, tab, LF, CR. -/
def isJsonWs (c : Char) : Bool :=
  c = ' ' || c = '\t' || c = '\n' || c = '\r'

/-- Drop characters satisfying `p` from both ends. -/
def trimBy (p : Char → Bool) (l : List Char) : List Char :=
  ((l.dropWhile p).reverse.dropWhile p).reverse

/-- Python `str.strip()` with no argument. -/
def pyStrip (s : String) : String := String.mk (trimBy isPyWs s.data)

/-- Python `str.lower()` (ASCII fragment, enough for the status strings). -/
def pyLower (s : String) : String := String.mk (s.data.map Char.toLower)

/-- Python `str.replace(old, new)` for one-character arguments. -/
def replaceChar (c r : Char) (s : String) : String :=
  String.mk (s.data.map fun x => if x = c then r else x)

/-- Python `text.split(chr)` for a one-character separator: the splitting
used on the plan text (`plan_text.split('\n')`). -/
def splitChar (sep : Char) : List Char → List (List Char)
  | [] => [[]]
  | c :: rest =>
    if c = sep then [] :: splitChar sep rest
    else
      match splitChar sep rest with
      | h :: t => (c :: h) :: t
      | [] => [[c]]

/-- Does `pre` begin `s`? (model of `str.startswith`). -/
def hasPre : List Char → List Char → Bool
  | [], _ => true
  | _ :: _, [] => false
  | p :: ps, c :: cs => p = c && hasPre ps cs

/-- Does `suf` end `s`? (model of `str.endswith`). -/
def hasSuf (suf s : List Char) : Bool := hasPre suf.reverse s.reverse

mutual
/-- Python `repr` of a JSON-decoded value (the form `str` uses inside
containers). String escaping inside `repr` is not modelled; the program
only ever feeds the result to the report, never back to a parser. -/
def pyRepr : JValue → String
  | .str s => "\x27" ++ s ++ "\x27"
  | .num raw => raw
  | .bool b => if b then "True" else "False"
  | .null => "None"
  | .arr xs => "[" ++ pyReprList xs ++ "]"
  | .obj fs => "\x7b" ++ pyReprFields fs ++ "\x7d"

def pyReprList : List JValue → String
  | [] => ""
  | [x] => pyRepr x
  | x :: rest => pyRepr x ++ ", " ++ pyReprList rest

def pyReprFields : List (String × JValue) → String
  | [] => ""
  | [(k, v)] => "\x27" ++ k ++ "\x27: " ++ pyRepr v
  | (k, v) :: rest => "\x27" ++ k ++ "\x27: " ++ pyRepr v ++ ", " ++ pyReprFields rest
end

/-- Python `str(value)`: like `repr` except a top-level string is itself. -/
def pyStr : JValue → String
  | .str s => s
  | v => pyRepr v

/-- Hex digits for `json.dumps` escapes. -/
def hexDigit (n : Nat) : Char :=
  if n < 10 then Char.ofNat (48 + n) else Char.ofNat (87 + (n % 16))

/-- `json.dumps` escape of one character (default `ensure_ascii=True`). -/
def dumpsEsc (c : Char) : List Char :=
  if c = '\x22' then ['\x5c', '\x22']
  else if c = '\x5c' then ['\x5c', '\x5c']
  else if c = '\n' then ['\x5c', 'n']
  else if c = '\t' then ['\x5c', 't']
  else if c = '\r' then ['\x5c', 'r']
  else if c = '\x08' then ['\x5c', 'b']
  else if c = '\x0c' then ['\x5c', 'f']
  else if c.toNat < 32 || 126 < c.toNat then
    ['\x5c', 'u', hexDigit (c.toNat / 4096 % 16), hexDigit (c.toNat / 256 % 16),
      hexDigit (c.toNat / 16 % 16), hexDigit (c.toNat % 16)]
  else [c]

/-- `json.dumps` rendering of a string. -/
def dumpsStr (s : String) : String :=
  "\x22" ++ String.mk (s.data.flatMap dumpsEsc) ++ "\x22"

mutual
/-- Python `json.dumps(value)` with default separators `", "` / `": "`. -/
def jsonDumps : JValue → String
  | .str s => dumpsStr s
  | .num raw => raw
  | .bool b => if b then "true" else "false"
  | .null => "null"
  | .arr xs => "[" ++ jsonDumpsList xs ++ "]"
  | .obj fs => "\x7b" ++ jsonDumpsFields fs ++ "\x7d"

def jsonDumpsList : List JValue → String
  | [] => ""
  | [x] => jsonDumps x
  | x :: rest => jsonDumps x ++ ", " ++ jsonDumpsList rest

def jsonDumpsFields : List (String × JValue) → String
  | [] => ""
  | [(k, v)] => dumpsStr k ++ ": " ++ jsonDumps v
  | (k, v) :: rest => dumpsStr k ++ ": " ++ jsonDumps v ++ ", " ++ jsonDumpsFields rest
end

/-- Characters that can occur in a JSON number token. -/
def isNumChar (c : Char) : Bool :=
  c.isDigit || c = '-' || c = '+' || c = '.' || c = 'e' || c = 'E'

/-- One or more digits, returning the remainder. -/
def chompDigits : List Char → Option (List Char)
  | c :: rest => if c.isDigit then some (rest.dropWhile Char.isDigit) else none
  | [] => none

def validExp : List Char → Bool
  | [] => true
  | c :: rest =>
    if c = 'e' || c = 'E' then
      let rest := match rest with
        | s :: r2 => if s = '+' || s = '-' then r2 else rest
        | [] => rest
      match chompDigits rest with
      | some [] => true
      | _ => false
    else false

def validFrac : List Char → Bool
  | [] => true
  | c :: rest =>
    if c = '.' then
      match chompDigits rest with
      | some r2 => validExp r2
      | none => false
    else validExp (c :: rest)

/-- The RFC 8259 number grammar, as accepted by `json.loads`. -/
def validNum (cs : List Char) : Bool :=
  let cs1 := match cs with
    | '-' :: r => r
    | _ => cs
  match cs1 with
  | '0' :: r => validFrac r
  | c :: r => c.isDigit && validFrac (r.dropWhile Char.isDigit)
  | [] => false

def isHexD (c : Char) : Bool :=
  c.isDigit || ('a' ≤ c && c ≤ 'f') || ('A' ≤ c && c ≤ 'F')

def hexVal (c : Char) : Nat :=
  if c.isDigit then c.toNat - 48
  else if 'a' ≤ c && c ≤ 'f' then c.toNat - 87
  else c.toNat - 55

/-- Short escapes accepted after a backslash inside a JSON string. -/
def escChar : Char → Option Char
  | '\x22' => some '\x22'
  | '\x5c' => some '\x5c'
  | '/' => some '/'
  | 'b' => some '\x08'
  | 'f' => some '\x0c'
  | 'n' => some '\n'
  | 'r' => some '\r'
  | 't' => some '\t'
  | _ => none

/-- Four hex digits of a `\uXXXX` escape. -/
def parseHex4 : List Char → Option (Char × List Char)
  | h1 :: h2 :: h3 :: h4 :: r =>
    if isHexD h1 && isHexD h2 && isHexD h3 && isHexD h4 then
      some (Char.ofNat (hexVal h1 * 4096 + hexVal h2 * 256 + hexVal h3 * 16 + hexVal h4), r)
    else none
  | _ => none

/-- Decode the escape that follows a backslash. -/
def escDecode (e : Char) (r : List Char) : Option (Char × List Char) :=
  if e = 'u' then parseHex4 r
  else
    match escChar e with
    | some ec => some (ec, r)
    | none => none

/-- Body of a JSON string after the opening quote, fuel-indexed.
Returns the decoded characters and the input after the closing quote.
Unescaped control characters are rejected (strict mode of `json.loads`). -/
def parseStrF : Nat → List Char → Option (List Char × List Char)
  | 0, _ => none
  | Nat.succ n, cs =>
    match cs with
    | [] => none
    | c :: r =>
      if c = '\x22' then some ([], r)
      else if c = '\x5c' then
        match r with
        | [] => none
        | e :: r2 =>
          match escDecode e r2 with
          | some (ec, r3) =>
            match parseStrF n r3 with
            | some (out, rest) => some (ec :: out, rest)
            | none => none
          | none => none
      else if c.toNat < 32 then none
      else
        match parseStrF n r with
        | some (out, rest) => some (c :: out, rest)
        | none => none

mutual
/-- Recursive-descent model of the `json.loads` value grammar.
The input is assumed to start at a non-blank character; whitespace
between tokens is skipped where the grammar allows it. The non-standard
`NaN`/`Infinity` extensions of the Python decoder are not modelled. -/
def parseVal : Nat → List Char → Option (JValue × List Char)
  | 0, _ => none
  | Nat.succ n, cs =>
    match cs with
    | [] => none
    | c :: r =>
      if c = 't' then
        if hasPre ['r', 'u', 'e'] r then some (.bool true, r.drop 3) else none
      else if c = 'f' then
        if hasPre ['a', 'l', 's', 'e'] r then some (.bool false, r.drop 4) else none
      else if c = 'n' then
        if hasPre ['u', 'l', 'l'] r then some (.null, r.drop 3) else none
      else if c = '\x22' then
        match parseStrF n r with
        | some (out, rest) => some (.str (String.mk out), rest)
        | none => none
      else if c = '[' then
        match r.dropWhile isJsonWs with
        | [] => none
        | c2 :: r2 =>
          if c2 = ']' then some (.arr [], r2)
          else
            match parseItems n (c2 :: r2) with
            | some (vs, rest) => some (.arr vs, rest)
            | none => none
      else if c = '\x7b' then
        match r.dropWhile isJsonWs with
        | [] => none
        | c2 :: r2 =>
          if c2 = '\x7d' then some (.obj [], r2)
          else
            match parseMembers n (c2 :: r2) with
            | some (fs, rest) => some (.obj fs, rest)
            | none => none
      else if c.isDigit || c = '-' then
        let tok := (c :: r).takeWhile isNumChar
        if validNum tok then some (.num (String.mk tok), (c :: r).dropWhile isNumChar)
        else none
      else none

/-- One or more comma-separated array items followed by `]`. -/
def parseItems : Nat → List Char → Option (List JValue × List Char)
  | 0, _ => none
  | Nat.succ n, cs =>
    match parseVal n cs with
    | none => none
    | some (v, rest) =>
      match rest.dropWhile isJsonWs with
      | [] => none
      | c :: r2 =>
        if c = ',' then
          match parseItems n (r2.dropWhile isJsonWs) with
          | none => none
          | some (vs, rest2) => some (v :: vs, rest2)
        else if c = ']' then some ([v], r2)
        else none

/-- One or more `"key": value` members followed by `\x7d`. -/
def parseMembers : Nat → List Char → Option (List (String × JValue) × List Char)
  | 0, _ => none
  | Nat.succ n, cs =>
    match cs with
    | [] => none
    | c :: r =>
      if c = '\x22' then
        match parseStrF n r with
        | none => none
        | some (k, r1) =>
          match r1.dropWhile isJsonWs with
          | [] => none
          | c2 :: r2 =>
            if c2 = ':' then
              match parseVal n (r2.dropWhile isJsonWs) with
              | none => none
              | some (v, rest) =>
                match rest.dropWhile isJsonWs with
                | [] => none
                | c3 :: r3 =>
                  if c3 = ',' then
                    match parseMembers n (r3.dropWhile isJsonWs) with
                    | none => none
                    | some (fs, rest2) => some (addMember (String.mk k) v fs, rest2)
                  else if c3 = '\x7d' then some ([(String.mk k, v)], r3)
                  else none
            else none
      else none
end

/-- `json.loads(s)`: trim surrounding whitespace, parse one value, and
require the whole input to be consumed. -/
def jsonLoads (s : String) : Option JValue :=
  match parseVal (2 * (trimBy isJsonWs s.data).length + 2) (trimBy isJsonWs s.data) with
  | some (v, []) => some v
  | _ => none

/-!  ## The analysis node (response handling, `analysis_node` lines 160-167) -/

/-- The code-fence stripping in `analysis_node`:
`if content.startswith("```json"): content = content[7:]` followed by
`if content.endswith("```"): content = content[:-3]`. -/
def stripFences (content : String) : String :=
  let c1 := if hasPre "```json".data content.data
    then String.mk (content.data.drop 7) else content
  if hasSuf "```".data c1.data
    then String.mk (c1.data.take (c1.data.length - 3)) else c1

/-- The fallback row built when `json.loads` raises (line 167). -/
def fallbackReport (content : String) : JValue :=
  .arr [.obj [("step", .str "Error parsing LLM output"), ("status", .str "Deviation"),
    ("reasoning", .str content), ("evidence", .str "")]]

/-- `analysis_node` after the model call returns `response.content`:
strip, defensively remove code fences, `json.loads` with the
`JSONDecodeError` fallback. The result is whatever JSON value the model
produced (the code does not validate its shape). -/
def analysis_node_parse (responseContent : String) : JValue :=
  match jsonLoads (stripFences (pyStrip responseContent)) with
  | some v => v
  | none => fallbackReport (stripFences (pyStrip responseContent))

/-!  ## The Hercules log parser (`extract_plan` / `extract_evidence`) -/

/-- Iteration `for entry in x:` over a Python value: lists yield their
elements, dicts their keys, strings their characters; anything else
raises `TypeError`. -/
def pyIter : JValue → Except String (List JValue)
  | .arr xs => .ok xs
  | .obj fs => .ok (fs.map fun kv => .str kv.1)
  | .str s => .ok (s.data.map fun c => .str (String.mk [c]))
  | _ => .error "TypeError: object is not iterable"

/-- `re.sub(r'^\d+\.\s*', '', line)`: remove one leading run of digits
followed by a period and optional whitespace. -/
def stripOrdinal (s : String) : String :=
  if (s.data.takeWhile Char.isDigit).isEmpty then s
  else
    match s.data.drop (s.data.takeWhile Char.isDigit).length with
    | '.' :: rest => String.mk (rest.dropWhile isPyWs)
    | _ => s

/-- The list comprehension of `extract_plan` (lines 92-93): split the plan
text on newlines, keep non-blank lines, strip the ordinal numbering and
surrounding whitespace from each. -/
def splitPlanText (s : String) : List String :=
  (((splitChar '\n' s.data).map String.mk).filter fun line => !(pyStrip line = "")).map
    fun line => pyStrip (stripOrdinal line)

/-- The `for entry in target_logs` loop of `extract_plan` (lines 88-94). -/
def planLoop : List JValue → Except String (List String)
  | [] => .ok []
  | entry :: rest =>
    match entry with
    | .obj fs =>
      if eqStrOpt (lookupJ fs "name") "planner_agent" then
        match lookupJ fs "content" with
        | some (.obj cfs) =>
          if truthy ((lookupJ cfs "plan").getD (.str "")) then
            match (lookupJ cfs "plan").getD (.str "") with
            | .str s => .ok (splitPlanText s)
            | _ => .error "AttributeError: no attribute split"
          else planLoop rest
        | _ => planLoop rest
      else planLoop rest
    | _ => .error "AttributeError: no attribute get"

/-- `HerculesLogParser.extract_plan` (lines 80-95). -/
def extract_plan (logs : JValue) : Except String (List String) :=
  match logs with
  | .obj fs =>
    match lookupJ fs "planner_agent" with
    | some v =>
      match pyIter v with
      | .ok entries => planLoop entries
      | .error e => .error e
    | none => .ok []
  | .arr xs => planLoop xs
  | _ => .ok []

/-- One evidence record (`{"id": i, "type": "observation", "description": ...}`). -/
structure EvidenceRecord where
  id : Nat
  type : String
  description : String
deriving DecidableEq

/-- The `for i, entry in enumerate(target_logs)` loop of `extract_evidence`
(lines 103-117), carrying the running index. -/
def evidenceLoop : Nat → List JValue → Except String (List EvidenceRecord)
  | _, [] => .ok []
  | i, entry :: rest =>
    match entry with
    | .obj fs =>
      if eqStrOpt (lookupJ fs "name") "user" then
        let content := (lookupJ fs "content").getD (.str "")
        let desc := match content with
          | .obj cfs => jsonDumps (.obj cfs)
          | c => pyStr c
        match evidenceLoop (i + 1) rest with
        | .ok tl => .ok (⟨i, "observation", desc⟩ :: tl)
        | .error e => .error e
      else evidenceLoop (i + 1) rest
    | _ => .error "AttributeError: no attribute get"

/-- `HerculesLogParser.extract_evidence` (lines 97-117). -/
def extract_evidence (logs : JValue) : Except String (List EvidenceRecord) :=
  match logs with
  | .obj fs =>
    match lookupJ fs "planner_agent" with
    | some v =>
      match pyIter v with
      | .ok entries => evidenceLoop 0 entries
      | .error e => .error e
    | none => evidenceLoop 0 []
  | .arr xs => evidenceLoop 0 xs
  | _ => evidenceLoop 0 []

/-!  ## The reporting node (`reporting_node`, lines 171-187) -/

/-- `item['status']` etc.: Python subscript with a string key. -/
def pySubscript (v : JValue) (key : String) : Except String JValue :=
  match v with
  | .obj fs =>
    match lookupJ fs key with
    | some x => .ok x
    | none => .error "KeyError"
  | _ => .error "TypeError: not subscriptable with str"

/-- A value on which a `str` method (`lower`, `replace`) is called. -/
def asPyStr : JValue → Except String String
  | .str s => .ok s
  | _ => .error "AttributeError: not a str"

/-- Lines 180-182: sequential reassignment of `status_icon`. -/
def statusIcon (status : String) : String :=
  let icon := "✅"
  let icon := if pyLower status = "deviation" then "❌" else icon
  let icon := if pyLower status = "skipped" then "⚠️" else icon
  icon

/-- Line 184: `item['reasoning'].replace("|", "-").replace("\n", " ")`. -/
def safeReasoning (s : String) : String :=
  replaceChar '\n' ' ' (replaceChar '|' '-' s)

/-- Line 185: the f-string building one table row. -/
def renderFields (step status reasoning : String) : String :=
  "| " ++ step ++ " | " ++ statusIcon status ++ " **" ++ status ++ "** | " ++
    safeReasoning reasoning ++ " |\n"

/-- One iteration of the report loop (lines 179-185): the accesses in
source order, each able to raise. -/
def renderRow (item : JValue) : Except String String :=
  match pySubscript item "status" with
  | .error e => .error e
  | .ok sv =>
    match asPyStr sv with
    | .error e => .error e
    | .ok status =>
      match pySubscript item "reasoning" with
      | .error e => .error e
      | .ok rv =>
        match asPyStr rv with
        | .error e => .error e
        | .ok reasoning =>
          match pySubscript item "step" with
          | .error e => .error e
          | .ok stepv => .ok (renderFields (pyStr stepv) status reasoning)

def renderRowsGo : List JValue → Except String (List String)
  | [] => .ok []
  | item :: rest =>
    match renderRow item with
    | .error e => .error e
    | .ok row =>
      match renderRowsGo rest with
      | .error e => .error e
      | .ok rows => .ok (row :: rows)

/-- The data rows of the report, in loop order. -/
def renderRows (report : JValue) : Except String (List String) :=
  match pyIter report with
  | .error e => .error e
  | .ok items => renderRowsGo items

def reportHeader : String :=
  "# 🕵️‍♀️ Hercules Video Analysis Report\n\n" ++
  "| Step Description | Result | Notes/Evidence |\n" ++
  "| :--- | :--- | :--- |\n"

/-- `reporting_node`: title, table header, one row per item of
`state['analysis_report']`. -/
def reporting_node (report : JValue) : Except String String :=
  match renderRows report with
  | .error e => .error e
  | .ok rows => .ok (reportHeader ++ String.join rows)

/-!  ## Definitions taken from the specification text

These follow the spec's words (not the code) and are compared with the
code-level functions in the refinement theorems below.
-/

/-- From the spec of plan extraction, as the claim states it: an event
"whose `name` equals planner_agent and whose `content` is a mapping
containing a `plan` field". -/
def hasPlanFieldEvent (e : JValue) : Bool :=
  match e with
  | .obj fs =>
    eqStrOpt (lookupJ fs "name") "planner_agent" &&
      (match lookupJ fs "content" with
        | some (.obj cfs) => (lookupJ cfs "plan").isSome
        | _ => false)
  | _ => false

/-- The plan field's text, read off an event (empty if absent/not text). -/
def planTextOf (e : JValue) : String :=
  match e with
  | .obj fs =>
    match lookupJ fs "content" with
    | some (.obj cfs) =>
      match lookupJ cfs "plan" with
      | some (.str s) => s
      | _ => ""
    | _ => ""
  | _ => ""

/-- Plan extraction exactly as the claim words it: first event containing
a plan field; its text split on newlines, blank lines discarded, the
leading ordinal numbering stripped from each line. -/
def planSpecClaim (entries : List JValue) : List String :=
  match entries.find? hasPlanFieldEvent with
  | some e =>
    (((splitChar '\n' (planTextOf e).data).map String.mk).filter
      fun line => !(line = "")).map stripOrdinal
  | none => []

/-- The amended selection: the first event whose name is planner_agent,
whose content is a mapping and whose plan field is a non-empty string. -/
def isPlanEvent (e : JValue) : Bool :=
  (match e with
    | .obj fs =>
      eqStrOpt (lookupJ fs "name") "planner_agent" &&
        (match lookupJ fs "content" with
          | some (.obj _) => true
          | _ => false)
    | _ => false) && !(planTextOf e = "")

/-- Amended spec-level plan extraction. -/
def planSpecAmended (entries : List JValue) : List String :=
  match entries.find? isPlanEvent with
  | some e => splitPlanText (planTextOf e)
  | none => []

/-- Well-formedness for plan extraction: events are mappings and any
`plan` field under a mapping `content` is text (the shapes on which the
source cannot raise and the claim speaks). -/
def wfPlanEntry (e : JValue) : Bool :=
  match e with
  | .obj fs =>
    match lookupJ fs "content" with
    | some (.obj cfs) =>
      match lookupJ cfs "plan" with
      | some (.str _) => true
      | none => true
      | some _ => false
    | _ => true
  | _ => false

def wfPlan (entries : List JValue) : Bool := entries.all wfPlanEntry

/-- The description the spec prescribes for one observation event:
compact JSON for a mapping content, the plain string form otherwise. -/
def descSpec (fs : List (String × JValue)) : String :=
  match lookupJ fs "content" with
  | some (.obj cfs) => jsonDumps (.obj cfs)
  | some c => pyStr c
  | none => ""

/-- The record (if any) an event at index `i` contributes. -/
def evidenceProj (p : Nat × JValue) : Option EvidenceRecord :=
  match p.2 with
  | .obj fs =>
    if eqStrOpt (lookupJ fs "name") "user" then
      some ⟨p.1, "observation", descSpec fs⟩
    else none
  | _ => none

/-- Spec-level evidence extraction: each event whose name is "user", at
its original index, with the content serialized as compact JSON when it
is a mapping and by `str` otherwise. -/
def evidenceSpec (entries : List JValue) : List EvidenceRecord :=
  entries.enum.filterMap evidenceProj

/-- Well-formedness for evidence extraction: events are mappings with a
content field present. -/
def wfEvEntry (e : JValue) : Bool :=
  match e with
  | .obj fs => (lookupJ fs "content").isSome
  | _ => false

def wfEv (entries : List JValue) : Bool := entries.all wfEvEntry

/-- A classification item on which the report loop cannot raise:
a mapping with string `status` and `reasoning` and some `step`. -/
def renderableItem (v : JValue) : Bool :=
  match v with
  | .obj fs =>
    (match lookupJ fs "status" with
      | some (.str _) => true
      | _ => false) &&
    (match lookupJ fs "reasoning" with
      | some (.str _) => true
      | _ => false) &&
    (lookupJ fs "step").isSome
  | _ => false

/-- An analysis report the renderer is guaranteed to accept. -/
def renderable (v : JValue) : Bool :=
  match v with
  | .arr items => items.all renderableItem
  | _ => false

/-- The row a renderable item produces (total projection of `renderRow`). -/
def rowOf (v : JValue) : String :=
  match v with
  | .obj fs =>
    renderFields (pyStr ((lookupJ fs "step").getD .null))
      (match lookupJ fs "status" with
        | some (.str s) => s
        | _ => "")
      (match lookupJ fs "reasoning" with
        | some (.str s) => s
        | _ => "")
  | _ => ""

/-- The per-character substitution the spec describes for table cells. -/
def cellSubst (c : Char) : Char :=
  if c = '|' then '-' else if c = '\n' then ' ' else c

/-- Does the text begin with an ordinal numbering (digits then a period)? -/
def hasOrdPre (l : List Char) : Bool :=
  let ds := l.takeWhile Char.isDigit
  !ds.isEmpty &&
    (match l.drop ds.length with
      | '.' :: _ => true
      | _ => false)

/-- The full per-line transformation of `extract_plan` (regex sub + strip). -/
def stripLine (s : String) : String := pyStrip (stripOrdinal s)

/-- The spec's end-to-end example document (section 8). -/
def examplePlannerEvent : JValue :=
  .obj [("name", .str "planner_agent"),
    ("content", .obj [("plan", .str "1. Open page\n2. Click submit")])]

def exampleUserEvent1 : JValue :=
  .obj [("name", .str "user"), ("content", .str "page loaded")]

def exampleUserEvent2 : JValue :=
  .obj [("name", .str "user"),
    ("content", .obj [("error", .str "submit button not found")])]

def exampleEntries : List JValue :=
  [examplePlannerEvent, exampleUserEvent1, exampleUserEvent2]

def exampleDoc : JValue := .obj [("planner_agent", .arr exampleEntries)]

/-!  ## Lemmas about trimming and dropWhile -/

theorem head?_dropWhile_not (p : Char → Bool) :
    ∀ (l : List Char) (c : Char), (l.dropWhile p).head? = some c → p c = false := by
  intro l
  induction l with
  | nil => intro c h; simp [List.dropWhile] at h
  | cons a l ih =>
    intro c h
    by_cases hp : p a
    · rw [List.dropWhile_cons_of_pos hp] at h
      exact ih c h
    · rw [List.dropWhile_cons_of_neg hp] at h
      simp at h
      subst h
      exact Bool.eq_false_iff.mpr hp

theorem getLast?_dropWhile (p : Char → Bool) :
    ∀ l : List Char, l.dropWhile p = [] ∨ (l.dropWhile p).getLast? = l.getLast? := by
  intro l
  induction l with
  | nil => left; rfl
  | cons a l ih =>
    by_cases hp : p a
    · rw [List.dropWhile_cons_of_pos hp]
      cases l with
      | nil => left; rfl
      | cons b l' =>
        rcases ih with h | h
        · left; exact h
        · right; rw [h, List.getLast?_cons_cons]
    · right
      rw [List.dropWhile_cons_of_neg hp]

theorem all_takeWhile (p : Char → Bool) :
    ∀ l : List Char, (l.takeWhile p).all p = true := by
  intro l
  induction l with
  | nil => rfl
  | cons a l ih =>
    by_cases hp : p a
    · rw [List.takeWhile_cons_of_pos hp]
      simp [hp, ih]
    · rw [List.takeWhile_cons_of_neg hp]
      rfl

theorem dropWhile_append_all (p : Char → Bool) {w : List Char}
    (hw : w.all p = true) (l : List Char) : (w ++ l).dropWhile p = l.dropWhile p := by
  induction w with
  | nil => rfl
  | cons a w ih =>
    simp at hw
    rw [List.cons_append, List.dropWhile_cons_of_pos hw.1]
    exact ih (List.all_eq_true.mpr hw.2)

theorem dropWhile_all_nil (p : Char → Bool) {w : List Char}
    (hw : w.all p = true) : w.dropWhile p = [] := by
  have := dropWhile_append_all p hw ([] : List Char)
  simpa using this

theorem trimBy_head (p : Char → Bool) (l : List Char) (c : Char)
    (h : (trimBy p l).head? = some c) : p c = false := by
  unfold trimBy at h
  rw [List.head?_reverse] at h
  rcases getLast?_dropWhile p (l.dropWhile p).reverse with h2 | h2
  · rw [h2] at h; simp at h
  · rw [h2, List.getLast?_reverse] at h
    exact head?_dropWhile_not p l c h

theorem trimBy_getLast (p : Char → Bool) (l : List Char) (c : Char)
    (h : (trimBy p l).getLast? = some c) : p c = false := by
  unfold trimBy at h
  rw [List.getLast?_reverse] at h
  exact head?_dropWhile_not p (l.dropWhile p).reverse c h

theorem trimBy_of_ends (p : Char → Bool) (l : List Char)
    (h1 : ∀ c, l.head? = some c → p c = false)
    (h2 : ∀ c, l.getLast? = some c → p c = false) : trimBy p l = l := by
  cases l with
  | nil => rfl
  | cons a l =>
    have ha : p a = false := h1 a rfl
    have hd : (a :: l).dropWhile p = a :: l :=
      List.dropWhile_cons_of_neg (by simp [ha])
    unfold trimBy
    rw [hd]
    cases hr : (a :: l).reverse with
    | nil => exact absurd hr (by simp)
    | cons b t =>
      have hb : (a :: l).getLast? = some b := by
        rw [← List.head?_reverse, hr]; rfl
      have hd2 : (b :: t).dropWhile p = b :: t :=
        List.dropWhile_cons_of_neg (by simp [h2 b hb])
      rw [hd2]
      have h3 := congrArg List.reverse hr
      rw [List.reverse_reverse] at h3
      exact h3.symm

theorem trimBy_idem (p : Char → Bool) (l : List Char) :
    trimBy p (trimBy p l) = trimBy p l :=
  trimBy_of_ends p (trimBy p l) (trimBy_head p l) (trimBy_getLast p l)

theorem trimBy_decomp (p : Char → Bool) (l : List Char) :
    ∃ w1 w2, w1.all p = true ∧ w2.all p = true ∧ l = w1 ++ trimBy p l ++ w2 := by
  refine ⟨l.takeWhile p, ((l.dropWhile p).reverse.takeWhile p).reverse, all_takeWhile p l, ?_, ?_⟩
  · rw [List.all_reverse]
    exact all_takeWhile p _
  · conv_lhs => rw [← List.takeWhile_append_dropWhile (p := p) (l := l)]
    rw [List.append_assoc]
    congr 1
    unfold trimBy
    conv_lhs => rw [← List.reverse_reverse (l.dropWhile p)]
    conv_lhs => rw [← List.takeWhile_append_dropWhile (p := p) (l := (l.dropWhile p).reverse)]
    rw [List.reverse_append]

theorem trimBy_dropWhile_congr (p : Char → Bool) {l1 l2 : List Char}
    (h : l1.dropWhile p = l2.dropWhile p) : trimBy p l1 = trimBy p l2 := by
  unfold trimBy
  rw [h]

theorem trimBy_append_right (p : Char → Bool) {w : List Char}
    (hw : w.all p = true) (l : List Char) : trimBy p (l ++ w) = trimBy p l := by
  by_cases hd : (l.dropWhile p).isEmpty
  · have h1 : (l ++ w).dropWhile p = [] := by
      rw [List.dropWhile_append, hd]
      simp [dropWhile_all_nil p hw]
    have h2 : l.dropWhile p = [] := by simpa using hd
    unfold trimBy
    rw [h1, h2]
  · have h1 : (l ++ w).dropWhile p = l.dropWhile p ++ w := by
      rw [List.dropWhile_append, if_neg hd]
    unfold trimBy
    rw [h1, List.reverse_append,
      dropWhile_append_all p (by rw [List.all_reverse]; exact hw)]

theorem trimBy_pad (p : Char → Bool) {w1 w2 : List Char} (l : List Char)
    (h1 : w1.all p = true) (h2 : w2.all p = true) :
    trimBy p (w1 ++ l ++ w2) = trimBy p l := by
  rw [List.append_assoc]
  rw [trimBy_dropWhile_congr p (dropWhile_append_all p h1 (l ++ w2))]
  exact trimBy_append_right p h2 l

theorem jsonWs_pyWs {c : Char} (h : isJsonWs c = true) : isPyWs c = true := by
  unfold isJsonWs at h
  unfold isPyWs
  rcases Bool.or_eq_true_iff.mp h with h | h
  · rcases Bool.or_eq_true_iff.mp h with h | h
    · rcases Bool.or_eq_true_iff.mp h with h | h <;> simp_all
    · simp_all
  · simp_all

/-!  ## Consumption lemmas for the JSON parser

These locate the consumed span of a successful parse and show that its
first and last characters are neither a backtick nor Python whitespace:
the facts that drive the code-fence equivalence theorem.
-/

/-- A character that can neither begin a code fence nor be stripped. -/
def goodChar (c : Char) : Bool := !(c = '\x60') && !(isPyWs c)

theorem ne_nil_of_getLast?' {u : List Char} {c : Char} (h : u.getLast? = some c) :
    u ≠ [] := by
  intro e
  subst e
  simp at h

theorem getLast?_mem' {u : List Char} {c : Char} (h : u.getLast? = some c) : c ∈ u := by
  induction u with
  | nil => simp at h
  | cons a t ih =>
    cases t with
    | nil =>
      simp at h
      simp [h]
    | cons b t' =>
      rw [List.getLast?_cons_cons] at h
      exact List.mem_cons_of_mem a (ih h)

theorem cons_getLast? (c : Char) {u : List Char} (h : u ≠ []) :
    (c :: u).getLast? = u.getLast? := by
  have : c :: u = [c] ++ u := rfl
  rw [this, List.getLast?_append_of_ne_nil [c] h]

theorem hasPre_decomp : ∀ {p s : List Char}, hasPre p s = true → s = p ++ s.drop p.length := by
  intro p
  induction p with
  | nil => intro s _; rfl
  | cons a p ih =>
    intro s h
    cases s with
    | nil => simp [hasPre] at h
    | cons c cs =>
      simp only [hasPre, Bool.and_eq_true, decide_eq_true_eq] at h
      obtain ⟨rfl, h2⟩ := h
      simpa using ih h2


theorem isPyWs_cases {c : Char} (h : isPyWs c = true) :
    c = ' ' ∨ c = '\t' ∨ c = '\n' ∨ c = '\r' ∨ c = '\x0b' ∨ c = '\x0c' := by
  unfold isPyWs at h
  simp at h
  tauto

theorem goodChar_of {c : Char} (h1 : c ≠ '\x60') (h2 : isPyWs c = false) :
    goodChar c = true := by
  unfold goodChar
  simp [h1, h2]

theorem isNumChar_good {c : Char} (h : isNumChar c = true) : goodChar c = true := by
  unfold isNumChar at h
  simp only [Bool.or_eq_true, decide_eq_true_eq] at h
  have hd : c.isDigit = true ∨ c = '-' ∨ c = '+' ∨ c = '.' ∨ c = 'e' ∨ c = 'E' := by tauto
  rcases hd with h | h | h | h | h | h
  · apply goodChar_of
    · intro e
      rw [e] at h
      exact absurd h (by decide)
    · by_cases hw : isPyWs c = true
      · rcases isPyWs_cases hw with e | e | e | e | e | e <;> (rw [e] at h; exact absurd h (by decide))
      · simpa using hw
  all_goals (subst h; decide)

theorem parseStrF_consume :
    ∀ (n : Nat) (cs out r), parseStrF n cs = some (out, r) →
      ∃ u, cs = u ++ r ∧ u.getLast? = some '\x22' := by
  intro n
  induction n with
  | zero => intro cs out r h; simp [parseStrF] at h
  | succ n ih =>
    intro cs out r h
    cases cs with
    | nil => simp [parseStrF] at h
    | cons c r0 =>
      by_cases h1 : c = '\x22'
      · simp only [parseStrF] at h
        rw [if_pos h1] at h
        simp only [Option.some.injEq, Prod.mk.injEq] at h
        refine ⟨[c], by simp [h.2], by simp [h1]⟩
      · by_cases h2 : c = '\x5c'
        · cases r0 with
          | nil => simp [parseStrF, h1, h2] at h
          | cons e r2 =>
            simp only [parseStrF] at h
            rw [if_neg h1, if_pos h2] at h
            cases hd : escDecode e r2 with
            | none => rw [hd] at h; simp at h
            | some p =>
              obtain ⟨ec, r3⟩ := p
              rw [hd] at h
              dsimp only at h
              cases hs : parseStrF n r3 with
              | none => rw [hs] at h; simp at h
              | some q =>
                obtain ⟨out', rest⟩ := q
                rw [hs] at h
                dsimp only at h
                simp only [Option.some.injEq, Prod.mk.injEq] at h
                obtain ⟨-, hr⟩ := h
                subst hr
                obtain ⟨u', hu1, hu2⟩ := ih r3 out' rest hs
                have hw : ∃ w, r2 = w ++ r3 := by
                  unfold escDecode at hd
                  by_cases he : e = 'u'
                  · rw [if_pos he] at hd
                    cases r2 with
                    | nil => simp [parseHex4] at hd
                    | cons a t1 =>
                      cases t1 with
                      | nil => simp [parseHex4] at hd
                      | cons b t2 =>
                        cases t2 with
                        | nil => simp [parseHex4] at hd
                        | cons d t3 =>
                          cases t3 with
                          | nil => simp [parseHex4] at hd
                          | cons f t4 =>
                            simp only [parseHex4] at hd
                            by_cases hx : (isHexD a && isHexD b && isHexD d && isHexD f) = true
                            · rw [if_pos hx] at hd
                              simp only [Option.some.injEq, Prod.mk.injEq] at hd
                              exact ⟨[a, b, d, f], by simp [hd.2]⟩
                            · rw [if_neg hx] at hd
                              simp at hd
                  · rw [if_neg he] at hd
                    cases hesc : escChar e with
                    | none => rw [hesc] at hd; simp at hd
                    | some ec' =>
                      rw [hesc] at hd
                      dsimp only at hd
                      simp only [Option.some.injEq, Prod.mk.injEq] at hd
                      exact ⟨[], by simp [hd.2]⟩
                obtain ⟨w, rfl⟩ := hw
                refine ⟨c :: e :: w ++ u', by simp [hu1], ?_⟩
                rw [List.getLast?_append_of_ne_nil _ (ne_nil_of_getLast?' hu2)]
                exact hu2
        · by_cases h3 : c.toNat < 32
          · simp only [parseStrF] at h
            rw [if_neg h1, if_neg h2, if_pos h3] at h
            simp at h
          · simp only [parseStrF] at h
            rw [if_neg h1, if_neg h2, if_neg h3] at h
            cases hs : parseStrF n r0 with
            | none => rw [hs] at h; simp at h
            | some q =>
              obtain ⟨out', rest⟩ := q
              rw [hs] at h
              dsimp only at h
              simp only [Option.some.injEq, Prod.mk.injEq] at h
              obtain ⟨-, hr⟩ := h
              subst hr
              obtain ⟨u', hu1, hu2⟩ := ih r0 out' rest hs
              refine ⟨c :: u', by simp [hu1], ?_⟩
              rw [cons_getLast? c (ne_nil_of_getLast?' hu2)]
              exact hu2

/-- The span consumed by a successful value parse: non-empty, and bounded
by characters that survive `str.strip` and cannot open or close a fence. -/
def goodSpan (u : List Char) : Prop :=
  u ≠ [] ∧ (∀ c, u.head? = some c → goodChar c = true) ∧
    (∀ c, u.getLast? = some c → goodChar c = true)

theorem getLast?_snoc' (x : List Char) (b : Char) : (x ++ [b]).getLast? = some b := by
  rw [List.getLast?_append_of_ne_nil x (by simp)]
  rfl

theorem append_ne_nil_right {x u : List Char} (h : u ≠ []) : x ++ u ≠ [] := by
  intro e
  rcases List.append_eq_nil.mp e with ⟨-, e2⟩
  exact h e2

theorem dropWhile_decomp (p : Char → Bool) {l m : List Char}
    (h : l.dropWhile p = m) : ∃ w, l = w ++ m :=
  ⟨l.takeWhile p, by rw [← h]; exact (List.takeWhile_append_dropWhile p l).symm⟩

theorem parseConsume : ∀ n : Nat,
    (∀ cs v r, parseVal n cs = some (v, r) → ∃ u, cs = u ++ r ∧ goodSpan u) ∧
    (∀ cs vs r, parseItems n cs = some (vs, r) →
      ∃ u, cs = u ++ r ∧ u ≠ [] ∧ u.getLast? = some ']') ∧
    (∀ cs fs r, parseMembers n cs = some (fs, r) →
      ∃ u, cs = u ++ r ∧ u ≠ [] ∧ u.getLast? = some '\x7d') := by
  intro n
  induction n with
  | zero =>
    refine ⟨?_, ?_, ?_⟩ <;> (intro cs x r h; simp [parseVal, parseItems, parseMembers] at h)
  | succ n ih =>
    obtain ⟨ihV, ihI, ihM⟩ := ih
    refine ⟨?_, ?_, ?_⟩
    · -- parseVal
      intro cs v r h
      cases cs with
      | nil => simp [parseVal] at h
      | cons c r0 =>
        simp only [parseVal] at h
        by_cases ht : c = 't'
        · rw [if_pos ht] at h
          by_cases hp : hasPre ['r', 'u', 'e'] r0 = true
          · rw [if_pos hp] at h
            simp only [Option.some.injEq, Prod.mk.injEq] at h
            obtain ⟨-, hr⟩ := h
            subst hr
            subst ht
            have hdec := hasPre_decomp hp
            refine ⟨['t', 'r', 'u', 'e'], ?_, by simp, ?_, ?_⟩
            · conv_lhs => rw [hdec]
              simp
            · intro c' hc
              simp at hc
              subst hc
              decide
            · intro c' hc
              simp at hc
              subst hc
              decide
          · rw [if_neg hp] at h
            simp at h
        · rw [if_neg ht] at h
          by_cases hf : c = 'f'
          · rw [if_pos hf] at h
            by_cases hp : hasPre ['a', 'l', 's', 'e'] r0 = true
            · rw [if_pos hp] at h
              simp only [Option.some.injEq, Prod.mk.injEq] at h
              obtain ⟨-, hr⟩ := h
              subst hr
              subst hf
              have hdec := hasPre_decomp hp
              refine ⟨['f', 'a', 'l', 's', 'e'], ?_, by simp, ?_, ?_⟩
              · conv_lhs => rw [hdec]
                simp
              · intro c' hc
                simp at hc
                subst hc
                decide
              · intro c' hc
                simp at hc
                subst hc
                decide
            · rw [if_neg hp] at h
              simp at h
          · rw [if_neg hf] at h
            by_cases hn : c = 'n'
            · rw [if_pos hn] at h
              by_cases hp : hasPre ['u', 'l', 'l'] r0 = true
              · rw [if_pos hp] at h
                simp only [Option.some.injEq, Prod.mk.injEq] at h
                obtain ⟨-, hr⟩ := h
                subst hr
                subst hn
                have hdec := hasPre_decomp hp
                refine ⟨['n', 'u', 'l', 'l'], ?_, by simp, ?_, ?_⟩
                · conv_lhs => rw [hdec]
                  simp
                · intro c' hc
                  simp at hc
                  subst hc
                  decide
                · intro c' hc
                  simp at hc
                  subst hc
                  decide
              · rw [if_neg hp] at h
                simp at h
            · rw [if_neg hn] at h
              by_cases hq : c = '\x22'
              · rw [if_pos hq] at h
                cases hs : parseStrF n r0 with
                | none => rw [hs] at h; simp at h
                | some q =>
                  obtain ⟨out, rest⟩ := q
                  rw [hs] at h
                  dsimp only at h
                  simp only [Option.some.injEq, Prod.mk.injEq] at h
                  obtain ⟨-, hr⟩ := h
                  subst hr
                  subst hq
                  obtain ⟨u', hu1, hu2⟩ := parseStrF_consume n r0 out rest hs
                  refine ⟨'\x22' :: u', by simp [hu1], by simp, ?_, ?_⟩
                  · intro c' hc
                    simp at hc
                    subst hc
                    decide
                  · intro c' hc
                    rw [cons_getLast? _ (ne_nil_of_getLast?' hu2), hu2] at hc
                    simp at hc
                    subst hc
                    decide
              · rw [if_neg hq] at h
                by_cases hb : c = '['
                · rw [if_pos hb] at h
                  cases hdw : r0.dropWhile isJsonWs with
                  | nil => rw [hdw] at h; simp at h
                  | cons c2 r2 =>
                    rw [hdw] at h
                    dsimp only at h
                    obtain ⟨tw, htw⟩ := dropWhile_decomp isJsonWs hdw
                    by_cases hc2 : c2 = ']'
                    · rw [if_pos hc2] at h
                      simp only [Option.some.injEq, Prod.mk.injEq] at h
                      obtain ⟨-, hr⟩ := h
                      subst hr
                      subst hb
                      subst hc2
                      refine ⟨('[' :: tw) ++ [']'], ?_, by simp, ?_, ?_⟩
                      · rw [htw]
                        simp
                      · intro c' hc
                        simp at hc
                        subst hc
                        decide
                      · intro c' hc
                        rw [getLast?_snoc'] at hc
                        simp at hc
                        subst hc
                        decide
                    · rw [if_neg hc2] at h
                      cases hi : parseItems n (c2 :: r2) with
                      | none => rw [hi] at h; simp at h
                      | some q =>
                        obtain ⟨vs, rest⟩ := q
                        rw [hi] at h
                        dsimp only at h
                        simp only [Option.some.injEq, Prod.mk.injEq] at h
                        obtain ⟨-, hr⟩ := h
                        subst hr
                        subst hb
                        obtain ⟨u2, hu1, hu2ne, hu2last⟩ := ihI (c2 :: r2) vs rest hi
                        refine ⟨('[' :: tw) ++ u2, ?_, by simp, ?_, ?_⟩
                        · rw [htw, hu1]
                          simp
                        · intro c' hc
                          simp at hc
                          subst hc
                          decide
                        · intro c' hc
                          rw [List.getLast?_append_of_ne_nil _ hu2ne, hu2last] at hc
                          simp at hc
                          subst hc
                          decide
                · rw [if_neg hb] at h
                  by_cases hbr : c = '\x7b'
                  · rw [if_pos hbr] at h
                    cases hdw : r0.dropWhile isJsonWs with
                    | nil => rw [hdw] at h; simp at h
                    | cons c2 r2 =>
                      rw [hdw] at h
                      dsimp only at h
                      obtain ⟨tw, htw⟩ := dropWhile_decomp isJsonWs hdw
                      by_cases hc2 : c2 = '\x7d'
                      · rw [if_pos hc2] at h
                        simp only [Option.some.injEq, Prod.mk.injEq] at h
                        obtain ⟨-, hr⟩ := h
                        subst hr
                        subst hbr
                        subst hc2
                        refine ⟨('\x7b' :: tw) ++ ['\x7d'], ?_, by simp, ?_, ?_⟩
                        · rw [htw]
                          simp
                        · intro c' hc
                          simp at hc
                          subst hc
                          decide
                        · intro c' hc
                          rw [getLast?_snoc'] at hc
                          simp at hc
                          subst hc
                          decide
                      · rw [if_neg hc2] at h
                        cases hm : parseMembers n (c2 :: r2) with
                        | none => rw [hm] at h; simp at h
                        | some q =>
                          obtain ⟨fs, rest⟩ := q
                          rw [hm] at h
                          dsimp only at h
                          simp only [Option.some.injEq, Prod.mk.injEq] at h
                          obtain ⟨-, hr⟩ := h
                          subst hr
                          subst hbr
                          obtain ⟨u2, hu1, hu2ne, hu2last⟩ := ihM (c2 :: r2) fs rest hm
                          refine ⟨('\x7b' :: tw) ++ u2, ?_, by simp, ?_, ?_⟩
                          · rw [htw, hu1]
                            simp
                          · intro c' hc
                            simp at hc
                            subst hc
                            decide
                          · intro c' hc
                            rw [List.getLast?_append_of_ne_nil _ hu2ne, hu2last] at hc
                            simp at hc
                            subst hc
                            decide
                  · rw [if_neg hbr] at h
                    by_cases hnum : (c.isDigit || c = '-') = true
                    · rw [if_pos hnum] at h
                      have hc : isNumChar c = true := by
                        unfold isNumChar
                        simp only [Bool.or_eq_true, decide_eq_true_eq] at hnum ⊢
                        tauto
                      by_cases hv : validNum ((c :: r0).takeWhile isNumChar) = true
                      · rw [if_pos hv] at h
                        simp only [Option.some.injEq, Prod.mk.injEq] at h
                        obtain ⟨-, hr⟩ := h
                        subst hr
                        refine ⟨(c :: r0).takeWhile isNumChar,
                          (List.takeWhile_append_dropWhile isNumChar (c :: r0)).symm, ?_, ?_, ?_⟩
                        · rw [List.takeWhile_cons_of_pos hc]
                          simp
                        · intro c' hcc
                          rw [List.takeWhile_cons_of_pos hc] at hcc
                          simp at hcc
                          subst hcc
                          exact isNumChar_good hc
                        · intro c' hcc
                          have hmem := getLast?_mem' hcc
                          have hall := all_takeWhile isNumChar (c :: r0)
                          exact isNumChar_good (List.all_eq_true.mp hall c' hmem)
                      · rw [if_neg hv] at h
                        simp at h
                    · rw [if_neg hnum] at h
                      simp at h
    · -- parseItems
      intro cs vs r h
      simp only [parseItems] at h
      cases hv : parseVal n cs with
      | none => rw [hv] at h; simp at h
      | some q =>
        obtain ⟨v, rest⟩ := q
        rw [hv] at h
        dsimp only at h
        obtain ⟨u1, hu1, hu1ne, -, -⟩ := ihV cs v rest hv
        cases hdw : rest.dropWhile isJsonWs with
        | nil => rw [hdw] at h; simp at h
        | cons c3 r2 =>
          rw [hdw] at h
          dsimp only at h
          obtain ⟨tw1, htw1⟩ := dropWhile_decomp isJsonWs hdw
          by_cases hc3 : c3 = ','
          · rw [if_pos hc3] at h
            cases hi : parseItems n (r2.dropWhile isJsonWs) with
            | none => rw [hi] at h; simp at h
            | some q2 =>
              obtain ⟨vs2, rest2⟩ := q2
              rw [hi] at h
              dsimp only at h
              simp only [Option.some.injEq, Prod.mk.injEq] at h
              obtain ⟨-, hr⟩ := h
              subst hr
              subst hc3
              obtain ⟨u2, hu2, hu2ne, hu2last⟩ := ihI (r2.dropWhile isJsonWs) vs2 rest2 hi
              obtain ⟨tw2, htw2⟩ := dropWhile_decomp isJsonWs (rfl : r2.dropWhile isJsonWs = _)
              rw [hu2] at htw2
              refine ⟨(((u1 ++ tw1) ++ [','] ++ tw2) ++ u2), ?_, append_ne_nil_right hu2ne, ?_⟩
              · rw [hu1, htw1, htw2]
                simp
              · rw [List.getLast?_append_of_ne_nil _ hu2ne]
                exact hu2last
          · rw [if_neg hc3] at h
            by_cases hc3' : c3 = ']'
            · rw [if_pos hc3'] at h
              simp only [Option.some.injEq, Prod.mk.injEq] at h
              obtain ⟨-, hr⟩ := h
              subst hr
              subst hc3'
              refine ⟨(u1 ++ tw1) ++ [']'], ?_, by simp, getLast?_snoc' _ _⟩
              rw [hu1, htw1]
              simp
            · rw [if_neg hc3'] at h
              simp at h
    · -- parseMembers
      intro cs fs r h
      cases cs with
      | nil => simp [parseMembers] at h
      | cons c r0 =>
        simp only [parseMembers] at h
        by_cases hcq : c = '\x22'
        · rw [if_pos hcq] at h
          cases hs : parseStrF n r0 with
          | none => rw [hs] at h; simp at h
          | some q =>
            obtain ⟨k, r1⟩ := q
            rw [hs] at h
            dsimp only at h
            obtain ⟨uk, huk, hukl⟩ := parseStrF_consume n r0 k r1 hs
            cases hdw : r1.dropWhile isJsonWs with
            | nil => rw [hdw] at h; simp at h
            | cons c2 r2 =>
              rw [hdw] at h
              dsimp only at h
              obtain ⟨tw1, htw1⟩ := dropWhile_decomp isJsonWs hdw
              by_cases hc2 : c2 = ':'
              · rw [if_pos hc2] at h
                cases hv : parseVal n (r2.dropWhile isJsonWs) with
                | none => rw [hv] at h; simp at h
                | some q2 =>
                  obtain ⟨v, rest⟩ := q2
                  rw [hv] at h
                  dsimp only at h
                  obtain ⟨u1, hu1, -, -, -⟩ := ihV (r2.dropWhile isJsonWs) v rest hv
                  obtain ⟨tw2, htw2⟩ := dropWhile_decomp isJsonWs (rfl : r2.dropWhile isJsonWs = _)
                  rw [hu1] at htw2
                  cases hdw2 : rest.dropWhile isJsonWs with
                  | nil => rw [hdw2] at h; simp at h
                  | cons c3 r3 =>
                    rw [hdw2] at h
                    dsimp only at h
                    obtain ⟨tw3, htw3⟩ := dropWhile_decomp isJsonWs hdw2
                    by_cases hc3 : c3 = ','
                    · rw [if_pos hc3] at h
                      cases hm : parseMembers n (r3.dropWhile isJsonWs) with
                      | none => rw [hm] at h; simp at h
                      | some q3 =>
                        obtain ⟨fs2, rest2⟩ := q3
                        rw [hm] at h
                        dsimp only at h
                        simp only [Option.some.injEq, Prod.mk.injEq] at h
                        obtain ⟨-, hr⟩ := h
                        subst hr
                        subst hc3
                        obtain ⟨u2, hu2, hu2ne, hu2last⟩ :=
                          ihM (r3.dropWhile isJsonWs) fs2 rest2 hm
                        obtain ⟨tw4, htw4⟩ :=
                          dropWhile_decomp isJsonWs (rfl : r3.dropWhile isJsonWs = _)
                        rw [hu2] at htw4
                        subst hcq
                        refine ⟨((((((('\x22' :: uk) ++ tw1) ++ [c2]) ++ tw2) ++ u1) ++ tw3)
                          ++ [','] ++ tw4) ++ u2, ?_, append_ne_nil_right hu2ne, ?_⟩
                        · rw [huk, htw1, htw2, htw3, htw4]
                          simp
                        · rw [List.getLast?_append_of_ne_nil _ hu2ne]
                          exact hu2last
                    · rw [if_neg hc3] at h
                      by_cases hc3' : c3 = '\x7d'
                      · rw [if_pos hc3'] at h
                        simp only [Option.some.injEq, Prod.mk.injEq] at h
                        obtain ⟨-, hr⟩ := h
                        subst hr
                        subst hc3'
                        subst hcq
                        refine ⟨(((((('\x22' :: uk) ++ tw1) ++ [c2]) ++ tw2) ++ u1) ++ tw3)
                          ++ ['\x7d'], ?_, by simp, getLast?_snoc' _ _⟩
                        rw [huk, htw1, htw2, htw3]
                        simp
                      · rw [if_neg hc3'] at h
                        simp at h
              · rw [if_neg hc2] at h
                simp at h
        · rw [if_neg hcq] at h
          simp at h

theorem goodChar_ne_backtick {c : Char} (h : goodChar c = true) : c ≠ '\x60' := by
  unfold goodChar at h
  intro e
  subst e
  simp at h

theorem goodChar_not_pyWs {c : Char} (h : goodChar c = true) : isPyWs c = false := by
  unfold goodChar at h
  simp only [Bool.and_eq_true, Bool.not_eq_true'] at h
  exact h.2

theorem goodChar_not_jsonWs {c : Char} (h : goodChar c = true) : isJsonWs c = false := by
  by_cases hj : isJsonWs c = true
  · exact absurd (jsonWs_pyWs hj) (by simp [goodChar_not_pyWs h])
  · simpa using hj

theorem all_jsonWs_pyWs {w : List Char} (h : w.all isJsonWs = true) : w.all isPyWs = true := by
  rw [List.all_eq_true] at h ⊢
  exact fun c hc => jsonWs_pyWs (h c hc)

theorem hasPre_append_self : ∀ p x : List Char, hasPre p (p ++ x) = true := by
  intro p
  induction p with
  | nil => intro x; rfl
  | cons a p ih => intro x; simp [hasPre, ih]

theorem hasSuf_append_self (p y : List Char) : hasSuf p (y ++ p) = true := by
  unfold hasSuf
  rw [List.reverse_append]
  exact hasPre_append_self _ _

theorem hasPre_cons_false {p0 c : Char} (ps cs : List Char) (h : ¬p0 = c) :
    hasPre (p0 :: ps) (c :: cs) = false := by
  simp [hasPre, h]

/-- Successful `jsonLoads` in terms of the parser. -/
theorem jsonLoads_inv {s : String} {v : JValue} (h : jsonLoads s = some v) :
    parseVal (2 * (trimBy isJsonWs s.data).length + 2) (trimBy isJsonWs s.data) =
      some (v, []) := by
  unfold jsonLoads at h
  cases hp : parseVal (2 * (trimBy isJsonWs s.data).length + 2) (trimBy isJsonWs s.data) with
  | none => rw [hp] at h; simp at h
  | some q =>
    obtain ⟨v', r'⟩ := q
    rw [hp] at h
    cases r' with
    | nil =>
      dsimp only at h
      simp at h
      rw [h]
    | cons a t =>
      dsimp only at h
      simp at h

theorem jsonLoads_of_parse {s : String} {v : JValue}
    (h : parseVal (2 * (trimBy isJsonWs s.data).length + 2) (trimBy isJsonWs s.data) =
      some (v, [])) : jsonLoads s = some v := by
  unfold jsonLoads
  rw [h]

theorem getLast?_isSome_of_ne_nil : ∀ {l : List Char}, l ≠ [] → ∃ c, l.getLast? = some c := by
  intro l h
  induction l with
  | nil => exact absurd rfl h
  | cons a t ih =>
    cases t with
    | nil => exact ⟨a, rfl⟩
    | cons b t' =>
      obtain ⟨c, hc⟩ := ih (by simp)
      exact ⟨c, by rw [List.getLast?_cons_cons]; exact hc⟩

theorem stripFences_eval_neg {content : String}
    (h1 : hasPre "```json".data content.data = false)
    (h2 : hasSuf "```".data content.data = false) :
    stripFences content = content := by
  simp [stripFences, h1, h2]

theorem stripFences_eval_pos {content : String}
    (h1 : hasPre "```json".data content.data = true)
    (h2 : hasSuf "```".data (content.data.drop 7) = true) :
    stripFences content =
      String.mk ((content.data.drop 7).take ((content.data.drop 7).length - 3)) := by
  simp [stripFences, h1, h2]

/-- A trimmed span with good ends passes through the fence stripping
of `analysis_node` untouched. -/
theorem stripFences_of_good {u : List Char} (hne : u ≠ [])
    (hh : ∀ c, u.head? = some c → goodChar c = true)
    (hl : ∀ c, u.getLast? = some c → goodChar c = true) :
    stripFences (String.mk u) = String.mk u := by
  cases u with
  | nil => exact absurd rfl hne
  | cons c0 u' =>
    have hc0 : goodChar c0 = true := hh c0 rfl
    apply stripFences_eval_neg
    · show hasPre ('\x60' :: "``json".data) (c0 :: u') = false
      exact hasPre_cons_false _ _ fun e => goodChar_ne_backtick hc0 e.symm
    · obtain ⟨cl, hcl⟩ := getLast?_isSome_of_ne_nil (l := c0 :: u') (by simp)
      have hclg : goodChar cl = true := hl cl hcl
      show hasPre "```".data.reverse (c0 :: u').reverse = false
      cases hrv : (c0 :: u').reverse with
      | nil => simp at hrv
      | cons b tb =>
        have hb : b = cl := by
          have hrev := List.head?_reverse (c0 :: u')
          rw [hrv, hcl] at hrev
          simpa using hrev
        subst hb
        show hasPre ('\x60' :: ['\x60', '\x60']) (b :: tb) = false
        exact hasPre_cons_false _ _ fun e => goodChar_ne_backtick hclg e.symm

/-- C7 (core argument): when the model response is valid JSON, wrapping it
in a ```json code fence leaves the parsed analysis report unchanged. -/
theorem fence_wrap_parse {t : String} {v : JValue} (h : jsonLoads t = some v) :
    analysis_node_parse ("```json\n" ++ t ++ "\n```") = v ∧ analysis_node_parse t = v := by
  have hp := jsonLoads_inv h
  obtain ⟨u, hu, hgs⟩ := (parseConsume (2 * (trimBy isJsonWs t.data).length + 2)).1 _ _ _ hp
  obtain ⟨hune, huh, hul⟩ := hgs
  rw [List.append_nil] at hu
  rw [hu] at hp
  obtain ⟨w1, w2, hw1, hw2, hdec⟩ := trimBy_decomp isJsonWs t.data
  rw [hu] at hdec
  have hJu : trimBy isJsonWs u = u :=
    trimBy_of_ends isJsonWs u (fun c hc => goodChar_not_jsonWs (huh c hc))
      (fun c hc => goodChar_not_jsonWs (hul c hc))
  have hloads : ∀ s : String, s.data = u → jsonLoads s = some v := by
    intro s hs
    apply jsonLoads_of_parse
    rw [hs, hJu]
    exact hp
  constructor
  · -- the fenced response
    have hPn : "```json\n".data = "```json".data ++ ['\n'] := rfl
    have hnQ : "\n```".data = '\n' :: "```".data := rfl
    have hdata : ("```json\n" ++ t ++ "\n```").data =
        ("```json\n".data ++ t.data) ++ "\n```".data := by
      rw [String.data_append, String.data_append]
    have hsplit : ("```json\n" ++ t ++ "\n```").data =
        "```json".data ++ ('\n' :: (t.data ++ ('\n' :: "```".data))) := by
      rw [hdata, hPn, hnQ]
      simp [List.append_assoc]
    have hstrip : pyStrip ("```json\n" ++ t ++ "\n```") = "```json\n" ++ t ++ "\n```" := by
      unfold pyStrip
      have he : trimBy isPyWs ("```json\n" ++ t ++ "\n```").data =
          ("```json\n" ++ t ++ "\n```").data := by
        apply trimBy_of_ends
        · intro c hc
          rw [hsplit] at hc
          simp only [List.cons_append, List.head?_cons] at hc
          simp at hc
          subst hc
          decide
        · intro c hc
          rw [hdata, List.getLast?_append_of_ne_nil _ (by rw [hnQ]; simp)] at hc
          rw [show ("\n```".data).getLast? = some '\x60' from rfl] at hc
          simp at hc
          subst hc
          decide
      rw [he]
    have hdrop : (("```json\n" ++ t ++ "\n```").data).drop 7 =
        '\n' :: (t.data ++ ('\n' :: "```".data)) := by
      rw [hsplit]
      rw [show (7 : Nat) = ("```json".data).length from rfl]
      exact List.drop_left _ _
    have hfence : stripFences ("```json\n" ++ t ++ "\n```") =
        String.mk (('\n' :: t.data) ++ ['\n']) := by
      rw [stripFences_eval_pos]
      · rw [hdrop]
        have hY : '\n' :: (t.data ++ ('\n' :: "```".data)) =
            (('\n' :: t.data) ++ ['\n']) ++ "```".data := by
          simp [List.append_assoc]
        rw [hY]
        congr 1
        have hlen : ((('\n' :: t.data) ++ ['\n']) ++ "```".data).length - 3 =
            (('\n' :: t.data) ++ ['\n']).length := by
          simp [List.length_append]
        rw [hlen]
        exact List.take_left _ _
      · rw [hsplit]
        exact hasPre_append_self _ _
      · rw [hdrop]
        have hY : '\n' :: (t.data ++ ('\n' :: "```".data)) =
            (('\n' :: t.data) ++ ['\n']) ++ "```".data := by
          simp [List.append_assoc]
        rw [hY]
        exact hasSuf_append_self _ _
    have htrimY : trimBy isJsonWs (('\n' :: t.data) ++ ['\n']) = u := by
      rw [show ('\n' :: t.data) ++ ['\n'] = ['\n'] ++ t.data ++ ['\n'] from by simp]
      rw [trimBy_pad isJsonWs t.data (by decide) (by decide)]
      exact hu
    have hloads2 : jsonLoads (String.mk (('\n' :: t.data) ++ ['\n'])) = some v := by
      apply jsonLoads_of_parse
      show parseVal (2 * (trimBy isJsonWs (('\n' :: t.data) ++ ['\n'])).length + 2)
        (trimBy isJsonWs (('\n' :: t.data) ++ ['\n'])) = some (v, [])
      rw [htrimY]
      exact hp
    unfold analysis_node_parse
    rw [hstrip, hfence, hloads2]
  · -- the bare response
    have hPm : trimBy isPyWs t.data = u := by
      rw [hdec, trimBy_pad isPyWs u (all_jsonWs_pyWs hw1) (all_jsonWs_pyWs hw2)]
      exact trimBy_of_ends isPyWs u (fun c hc => goodChar_not_pyWs (huh c hc))
        (fun c hc => goodChar_not_pyWs (hul c hc))
    have hstrip : pyStrip t = String.mk u := by
      unfold pyStrip
      rw [hPm]
    have hfence : stripFences (String.mk u) = String.mk u :=
      stripFences_of_good hune huh hul
    unfold analysis_node_parse
    rw [hstrip, hfence, hloads (String.mk u) rfl]

/-!  ## Rendering lemmas -/

theorem renderRow_ok {item : JValue} (h : renderableItem item = true) :
    renderRow item = .ok (rowOf item) := by
  cases item with
  | obj fs =>
    unfold renderableItem at h
    dsimp only at h
    cases hst : lookupJ fs "status" with
    | none => rw [hst] at h; simp at h
    | some sv =>
      rw [hst] at h
      cases sv with
      | str s =>
        cases hre : lookupJ fs "reasoning" with
        | none => rw [hre] at h; simp at h
        | some rv =>
          rw [hre] at h
          cases rv with
          | str s2 =>
            cases hsp : lookupJ fs "step" with
            | none => rw [hsp] at h; simp at h
            | some pv =>
              simp [renderRow, pySubscript, asPyStr, rowOf, hst, hre, hsp]
          | num x => simp at h
          | bool b => simp at h
          | null => simp at h
          | arr xs => simp at h
          | obj o => simp at h
      | num x => simp at h
      | bool b => simp at h
      | null => simp at h
      | arr xs => simp at h
      | obj o => simp at h
  | str s => simp [renderableItem] at h
  | num x => simp [renderableItem] at h
  | bool b => simp [renderableItem] at h
  | null => simp [renderableItem] at h
  | arr xs => simp [renderableItem] at h

theorem renderRowsGo_ok {items : List JValue} (h : items.all renderableItem = true) :
    renderRowsGo items = .ok (items.map rowOf) := by
  induction items with
  | nil => rfl
  | cons a t ih =>
    simp only [List.all_cons, Bool.and_eq_true] at h
    simp [renderRowsGo, renderRow_ok h.1, ih h.2]

theorem analysis_parse_fallback {r : String}
    (h : jsonLoads (stripFences (pyStrip r)) = none) :
    analysis_node_parse r = fallbackReport (stripFences (pyStrip r)) := by
  unfold analysis_node_parse
  rw [h]

/-!  ## The claims -/

/-- C1 (amended): when the stripped, fence-removed response text fails to
parse as JSON, `analysis_node` returns exactly one fallback classification
with step "Error parsing LLM output", status Deviation, empty evidence,
and the *stripped* content (not the raw response) in its reasoning field. -/
theorem C1_fallback_single_row (r : String)
    (h : jsonLoads (stripFences (pyStrip r)) = none) :
    analysis_node_parse r =
      .arr [.obj [("step", .str "Error parsing LLM output"), ("status", .str "Deviation"),
        ("reasoning", .str (stripFences (pyStrip r))), ("evidence", .str "")]] := by
  rw [analysis_parse_fallback h]
  rfl

/-- C1 counterexample: the reasoning field holds the stripped content,
not the raw response text — for the raw response "  not json  " the
fallback reasoning is "not json". -/
theorem C1_reasoning_not_raw :
    analysis_node_parse "  not json  " =
      .arr [.obj [("step", .str "Error parsing LLM output"), ("status", .str "Deviation"),
        ("reasoning", .str "not json"), ("evidence", .str "")]] ∧
      ("not json" : String) ≠ "  not json  " :=
  ⟨rfl, by decide⟩

theorem C1_fallback_witness :
    jsonLoads (stripFences (pyStrip "oops")) = none ∧
      analysis_node_parse "oops" =
        .arr [.obj [("step", .str "Error parsing LLM output"), ("status", .str "Deviation"),
          ("reasoning", .str "oops"), ("evidence", .str "")]] :=
  ⟨rfl, C1_fallback_single_row "oops" rfl⟩

/-- C2 (amended): once the model call has returned, the rest of the
pipeline cannot raise provided the response either fails to parse (the
fallback row is always renderable) or parses to a JSON array of objects
with string `status` and `reasoning` fields and some `step` field; other
valid-JSON shapes may make the report loop raise. -/
theorem C2_render_total (r : String) :
    (jsonLoads (stripFences (pyStrip r)) = none →
      renderable (analysis_node_parse r) = true) ∧
    (renderable (analysis_node_parse r) = true →
      ∃ md, reporting_node (analysis_node_parse r) = .ok md) := by
  constructor
  · intro h
    rw [analysis_parse_fallback h]
    rfl
  · intro h
    cases hv : analysis_node_parse r with
    | arr items =>
      rw [hv] at h
      unfold renderable at h
      refine ⟨reportHeader ++ String.join (items.map rowOf), ?_⟩
      simp [reporting_node, renderRows, pyIter, renderRowsGo_ok h]
    | str s => rw [hv] at h; simp [renderable] at h
    | num x => rw [hv] at h; simp [renderable] at h
    | bool b => rw [hv] at h; simp [renderable] at h
    | null => rw [hv] at h; simp [renderable] at h
    | obj fs => rw [hv] at h; simp [renderable] at h

def resultIsOk : Except String String → Bool
  | .ok _ => true
  | .error _ => false

/-- C2 counterexample: the response "[1]" is valid JSON, so the parse
fallback does not trigger, yet rendering raises (`item['status']` on an
int) — the claim that the remaining pipeline never raises is false. -/
theorem C2_valid_json_can_raise :
    jsonLoads (stripFences (pyStrip "[1]")) = some (.arr [.num "1"]) ∧
      resultIsOk (reporting_node (analysis_node_parse "[1]")) = false :=
  ⟨rfl, rfl⟩

theorem C2_render_total_witness :
    ∃ md, reporting_node (analysis_node_parse "nonsense") = .ok md :=
  (C2_render_total "nonsense").2 ((C2_render_total "nonsense").1 rfl)

/-- C3 (amended): the renderer is 1:1 and order-preserving with the
*classification list*: it emits exactly one data row per classification,
in input order. The row count equals the plan length only when the model
returns one classification per plan step; the code does not enforce it. -/
theorem C3_rows_match_classifications (items : List JValue)
    (h : items.all renderableItem = true) :
    renderRows (.arr items) = .ok (items.map rowOf) ∧
      (items.map rowOf).length = items.length := by
  refine ⟨?_, by simp⟩
  simp [renderRows, pyIter, renderRowsGo_ok h]

def sampleItems : List JValue :=
  [.obj [("step", .str "s"), ("status", .str "Observed"), ("reasoning", .str "r")],
   .obj [("step", .str "t"), ("status", .str "Deviation"), ("reasoning", .str "q")]]

theorem C3_rows_witness :
    renderRows (.arr sampleItems) = .ok (sampleItems.map rowOf) ∧
      (sampleItems.map rowOf).length = sampleItems.length :=
  C3_rows_match_classifications sampleItems (by rfl)

/-- C3 counterexample: the spec's example plan has two steps, yet a model
response holding a single (well-formed) classification renders one row. -/
theorem C3_row_count_not_plan_length :
    extract_plan exampleDoc = .ok ["Open page", "Click submit"] ∧
      renderRows (analysis_node_parse
        "[\x7b\"step\": \"s\", \"status\": \"Observed\", \"reasoning\": \"r\"\x7d]") =
        .ok ["| s | ✅ **Observed** | r |\n"] ∧
      (1 : Nat) ≠ 2 :=
  ⟨rfl, rfl, by decide⟩

/-- C7: a model response wrapped in a ```json code fence parses to the
same classification value as the bare response: for every JSON array text
`t`, the fenced and bare responses yield equal analysis reports. -/
theorem C7_code_fence_equiv (t : String) (xs : List JValue)
    (h : jsonLoads t = some (.arr xs)) :
    analysis_node_parse ("```json\n" ++ t ++ "\n```") = analysis_node_parse t := by
  obtain ⟨h1, h2⟩ := fence_wrap_parse h
  rw [h1, h2]

theorem C7_code_fence_witness :
    jsonLoads "[1]" = some (.arr [.num "1"]) ∧
      analysis_node_parse ("```json\n" ++ "[1]" ++ "\n```") = analysis_node_parse "[1]" :=
  ⟨rfl, C7_code_fence_equiv "[1]" [.num "1"] rfl⟩

/-- C9: the status-to-glyph mapping is case-insensitive (Observed → ✅,
Deviation → ❌, Skipped → ⚠️), defaults to the positive marker on any
unrecognized status, and the row renders the status name in bold next to
its glyph. -/
theorem C9_status_glyphs (status step reasoning : String) :
    (pyLower status = "observed" → statusIcon status = "✅") ∧
    (pyLower status = "deviation" → statusIcon status = "❌") ∧
    (pyLower status = "skipped" → statusIcon status = "⚠️") ∧
    (pyLower status ≠ "deviation" → pyLower status ≠ "skipped" → statusIcon status = "✅") ∧
    renderFields step status reasoning =
      ("| " ++ step ++ " | ") ++ (statusIcon status ++ " **" ++ status ++ "**") ++
        (" | " ++ safeReasoning reasoning ++ " |\n") := by
  refine ⟨?_, ?_, ?_, ?_, ?_⟩
  · intro h
    simp [statusIcon, h]
  · intro h
    simp [statusIcon, h]
  · intro h
    simp [statusIcon, h]
  · intro h1 h2
    simp [statusIcon, h1, h2]
  · unfold renderFields
    simp only [String.append_assoc]
    rfl

theorem C9_status_glyphs_witness :
    statusIcon "DEVIATION" = "❌" :=
  (C9_status_glyphs "DEVIATION" "s" "r").2.1 (by decide)

theorem subst_comp (l : List Char) :
    (l.map fun x => if x = '|' then '-' else x).map (fun x => if x = '\n' then ' ' else x) =
      l.map cellSubst := by
  induction l with
  | nil => rfl
  | cons a t ih =>
    simp only [List.map_cons, ih]
    congr 1
    by_cases h1 : a = '|'
    · simp [cellSubst, h1]
    · by_cases h2 : a = '\n'
      · simp [cellSubst, h1, h2]
      · simp [cellSubst, h1, h2]

theorem cellSubst_ne_pipe (y : Char) : cellSubst y ≠ '|' := by
  unfold cellSubst
  by_cases h1 : y = '|'
  · simp [h1]
  · by_cases h2 : y = '\n'
    · simp [h1, h2]
    · simp [h1, h2]

theorem cellSubst_ne_nl (y : Char) : cellSubst y ≠ '\n' := by
  unfold cellSubst
  by_cases h1 : y = '|'
  · simp [h1]
  · by_cases h2 : y = '\n'
    · simp [h1, h2]
    · simp [h1, h2]

/-- C10: the reasoning cell of a rendered row replaces every pipe with a
hyphen and every newline with a space, so the cell contains no literal
pipe and no newline. -/
theorem C10_reasoning_escaped (s : String) :
    (safeReasoning s).data = s.data.map cellSubst ∧
      '|' ∉ (safeReasoning s).data ∧ '\n' ∉ (safeReasoning s).data := by
  have hmain : (safeReasoning s).data = s.data.map cellSubst := by
    show ((s.data.map fun x => if x = '|' then '-' else x).map
      fun x => if x = '\n' then ' ' else x) = s.data.map cellSubst
    exact subst_comp s.data
  refine ⟨hmain, ?_, ?_⟩
  · rw [hmain]
    intro hmem
    obtain ⟨y, -, hy⟩ := List.mem_map.mp hmem
    exact cellSubst_ne_pipe y hy
  · rw [hmain]
    intro hmem
    obtain ⟨y, -, hy⟩ := List.mem_map.mp hmem
    exact cellSubst_ne_nl y hy

theorem stripOrdinal_no_prefix {s : String} (h : hasOrdPre s.data = false) :
    stripOrdinal s = s := by
  unfold stripOrdinal
  unfold hasOrdPre at h
  by_cases hd : (s.data.takeWhile Char.isDigit).isEmpty
  · rw [if_pos hd]
  · rw [if_neg hd]
    simp only [hd, Bool.not_false, Bool.true_and] at h
    cases hdrop : s.data.drop (s.data.takeWhile Char.isDigit).length with
    | nil => rfl
    | cons a rest =>
      rw [hdrop] at h
      split
      · next r heq =>
          rw [heq] at h
          simp at h
      · rfl

theorem pyStrip_idem (s : String) : pyStrip (pyStrip s) = pyStrip s :=
  congrArg String.mk (trimBy_idem isPyWs s.data)

/-- C8 (amended): the per-line stripping (ordinal prefix removal plus
whitespace strip) is idempotent on every line whose stripped form does
not itself begin with another ordinal prefix; a stacked numbering such as
"1. 2. Click" loses one prefix per application, so full idempotence fails. -/
theorem C8_strip_idem_on_clean (s : String)
    (h : hasOrdPre (stripLine s).data = false) :
    stripLine (stripLine s) = stripLine s := by
  have h2 : stripOrdinal (stripLine s) = stripLine s := stripOrdinal_no_prefix h
  show pyStrip (stripOrdinal (stripLine s)) = stripLine s
  rw [h2]
  show pyStrip (pyStrip (stripOrdinal s)) = pyStrip (stripOrdinal s)
  exact pyStrip_idem _

/-- C8 counterexample: stripping is not idempotent — "1. 2. Click" strips
to "2. Click" and a second application strips again to "Click". -/
theorem C8_not_idempotent :
    stripLine "1. 2. Click" = "2. Click" ∧ stripLine (stripLine "1. 2. Click") = "Click" ∧
      ("Click" : String) ≠ "2. Click" :=
  ⟨rfl, rfl, by decide⟩

theorem C8_strip_idem_witness :
    hasOrdPre (stripLine "1. Click button").data = false ∧
      stripLine (stripLine "1. Click button") = stripLine "1. Click button" :=
  ⟨rfl, C8_strip_idem_on_clean "1. Click button" rfl⟩

theorem planSpecAmended_skip {e : JValue} {rest : List JValue}
    (hiz : isPlanEvent e = false) :
    planSpecAmended (e :: rest) = planSpecAmended rest := by
  unfold planSpecAmended
  rw [List.find?_cons_of_neg _ (by simp [hiz])]

theorem planSpecAmended_hit {e : JValue} {rest : List JValue}
    (hiz : isPlanEvent e = true) :
    planSpecAmended (e :: rest) = splitPlanText (planTextOf e) := by
  unfold planSpecAmended
  rw [List.find?_cons_of_pos _ (by simp [hiz])]

theorem planLoop_spec : ∀ entries : List JValue, wfPlan entries = true →
    planLoop entries = .ok (planSpecAmended entries) := by
  intro entries
  induction entries with
  | nil => intro h; rfl
  | cons e rest ih =>
    intro h
    simp only [wfPlan, List.all_cons, Bool.and_eq_true] at h
    obtain ⟨he, ht⟩ := h
    have iht := ih ht
    cases e with
    | obj fs =>
      by_cases hn : eqStrOpt (lookupJ fs "name") "planner_agent" = true
      · cases hc : lookupJ fs "content" with
        | none =>
          have hiz : isPlanEvent (.obj fs) = false := by
            simp [isPlanEvent, hc]
          simp only [planLoop]
          rw [if_pos hn, hc]
          rw [planSpecAmended_skip hiz]
          exact iht
        | some cv =>
          cases cv with
          | obj cfs =>
            cases hpl : lookupJ cfs "plan" with
            | none =>
              have hiz : isPlanEvent (.obj fs) = false := by
                simp [isPlanEvent, planTextOf, hc, hpl]
              simp only [planLoop]
              rw [if_pos hn, hc]
              dsimp only
              rw [hpl]
              rw [show truthy ((none : Option JValue).getD (.str "")) = false from rfl]
              simp only [Bool.false_eq_true, if_false]
              rw [planSpecAmended_skip hiz]
              exact iht
            | some pv =>
              have hwf : ∃ sp, pv = .str sp := by
                unfold wfPlanEntry at he
                dsimp only at he
                rw [hc] at he
                dsimp only at he
                rw [hpl] at he
                cases pv with
                | str sp => exact ⟨sp, rfl⟩
                | num x => simp at he
                | bool b => simp at he
                | null => simp at he
                | arr xs => simp at he
                | obj o => simp at he
              obtain ⟨sp, rfl⟩ := hwf
              by_cases hsp : sp = ""
              · subst hsp
                have hiz : isPlanEvent (.obj fs) = false := by
                  simp [isPlanEvent, planTextOf, hc, hpl]
                simp only [planLoop]
                rw [if_pos hn, hc]
                dsimp only
                rw [hpl]
                rw [show truthy ((some (JValue.str "")).getD (.str "")) = false from rfl]
                simp only [Bool.false_eq_true, if_false]
                rw [planSpecAmended_skip hiz]
                exact iht
              · have hiz : isPlanEvent (.obj fs) = true := by
                  simp [isPlanEvent, planTextOf, hc, hpl, hn, hsp]
                have htru : truthy ((some (JValue.str sp)).getD (.str "")) = true := by
                  simp [truthy, hsp]
                simp only [planLoop]
                rw [if_pos hn, hc]
                dsimp only
                rw [hpl, htru]
                simp only [if_true]
                rw [planSpecAmended_hit hiz]
                have hpt : planTextOf (.obj fs) = sp := by
                  simp [planTextOf, hc, hpl]
                rw [hpt]
                rfl
          | str s2 =>
            have hiz : isPlanEvent (.obj fs) = false := by
              simp [isPlanEvent, hc]
            simp only [planLoop]
            rw [if_pos hn, hc]
            rw [planSpecAmended_skip hiz]
            exact iht
          | num x =>
            have hiz : isPlanEvent (.obj fs) = false := by
              simp [isPlanEvent, hc]
            simp only [planLoop]
            rw [if_pos hn, hc]
            rw [planSpecAmended_skip hiz]
            exact iht
          | bool b =>
            have hiz : isPlanEvent (.obj fs) = false := by
              simp [isPlanEvent, hc]
            simp only [planLoop]
            rw [if_pos hn, hc]
            rw [planSpecAmended_skip hiz]
            exact iht
          | null =>
            have hiz : isPlanEvent (.obj fs) = false := by
              simp [isPlanEvent, hc]
            simp only [planLoop]
            rw [if_pos hn, hc]
            rw [planSpecAmended_skip hiz]
            exact iht
          | arr xs =>
            have hiz : isPlanEvent (.obj fs) = false := by
              simp [isPlanEvent, hc]
            simp only [planLoop]
            rw [if_pos hn, hc]
            rw [planSpecAmended_skip hiz]
            exact iht
      · have hiz : isPlanEvent (.obj fs) = false := by
          simp [isPlanEvent, hn]
        simp only [planLoop]
        rw [if_neg hn]
        rw [planSpecAmended_skip hiz]
        exact iht
    | str s => simp [wfPlanEntry] at he
    | num x => simp [wfPlanEntry] at he
    | bool b => simp [wfPlanEntry] at he
    | null => simp [wfPlanEntry] at he
    | arr xs => simp [wfPlanEntry] at he

theorem evidenceLoop_spec : ∀ (entries : List JValue) (k : Nat), wfEv entries = true →
    evidenceLoop k entries = .ok ((entries.enumFrom k).filterMap evidenceProj) := by
  intro entries
  induction entries with
  | nil => intro k h; rfl
  | cons e rest ih =>
    intro k h
    simp only [wfEv, List.all_cons, Bool.and_eq_true] at h
    obtain ⟨he, ht⟩ := h
    have iht := ih (k + 1) ht
    cases e with
    | obj fs =>
      by_cases hn : eqStrOpt (lookupJ fs "name") "user" = true
      · simp only [wfEvEntry] at he
        cases hc : lookupJ fs "content" with
        | none => rw [hc] at he; simp at he
        | some cv =>
          simp only [evidenceLoop]
          rw [if_pos hn, hc, iht]
          cases cv with
          | obj cfs => simp [List.enumFrom_cons, List.filterMap_cons, evidenceProj, hn, descSpec, hc]
          | str s => simp [List.enumFrom_cons, List.filterMap_cons, evidenceProj, hn, descSpec, hc]
          | num x => simp [List.enumFrom_cons, List.filterMap_cons, evidenceProj, hn, descSpec, hc]
          | bool b => simp [List.enumFrom_cons, List.filterMap_cons, evidenceProj, hn, descSpec, hc]
          | null => simp [List.enumFrom_cons, List.filterMap_cons, evidenceProj, hn, descSpec, hc]
          | arr xs => simp [List.enumFrom_cons, List.filterMap_cons, evidenceProj, hn, descSpec, hc]
      · simp only [evidenceLoop]
        rw [if_neg hn, iht]
        have hproj : evidenceProj (k, .obj fs) = none := by
          simp [evidenceProj, hn]
        simp [List.enumFrom_cons, List.filterMap_cons, hproj]
    | str s => simp [wfEvEntry] at he
    | num x => simp [wfEvEntry] at he
    | bool b => simp [wfEvEntry] at he
    | null => simp [wfEvEntry] at he
    | arr xs => simp [wfEvEntry] at he

/-- C4 (amended): plan extraction takes the plan from the first event
whose name is planner_agent, whose content is a mapping, and whose plan
field is a *non-empty* string (matching events with an empty or missing
plan are passed over); each line is split on newlines, blank
(whitespace-only) lines are discarded, and both the ordinal prefix and
surrounding whitespace are stripped; no such event yields the empty plan,
not an error. Stated for a flat event list and for a mapping document. -/
theorem C4_extract_plan_spec (entries : List JValue) (h : wfPlan entries = true) :
    extract_plan (.arr entries) = .ok (planSpecAmended entries) ∧
    ∀ fs, lookupJ fs "planner_agent" = some (.arr entries) →
      extract_plan (.obj fs) = .ok (planSpecAmended entries) := by
  constructor
  · unfold extract_plan
    exact planLoop_spec entries h
  · intro fs hf
    unfold extract_plan
    dsimp only
    rw [hf]
    simp [pyIter, planLoop_spec entries h]

theorem C4_extract_plan_witness :
    extract_plan (.arr exampleEntries) = .ok (planSpecAmended exampleEntries) ∧
      planSpecAmended exampleEntries = ["Open page", "Click submit"] :=
  ⟨(C4_extract_plan_spec exampleEntries rfl).1, rfl⟩

def planCexEntries : List JValue :=
  [.obj [("name", .str "planner_agent"), ("content", .obj [("plan", .str "")])],
   .obj [("name", .str "planner_agent"), ("content", .obj [("plan", .str "1. A")])]]

/-- C4 counterexample: the first event whose content contains a `plan`
field has an empty plan; the claim says the (empty) plan is taken from
it, but the code skips it and returns the later event's plan. -/
theorem C4_first_plan_field_not_taken :
    planSpecClaim planCexEntries = [] ∧
      extract_plan (.arr planCexEntries) = .ok ["A"] ∧
      (["A"] : List String) ≠ [] :=
  ⟨rfl, rfl, by decide⟩

/-- C5: evidence extraction returns, in order, one record
`{id := i, type := "observation", description}` for exactly the events
named "user", where `i` is the event's original position and the
description is compact JSON for mapping contents and `str(...)`
otherwise. Stated for a flat event list and for a mapping document. -/
theorem C5_extract_evidence_spec (entries : List JValue) (h : wfEv entries = true) :
    extract_evidence (.arr entries) = .ok (evidenceSpec entries) ∧
    ∀ fs, lookupJ fs "planner_agent" = some (.arr entries) →
      extract_evidence (.obj fs) = .ok (evidenceSpec entries) := by
  constructor
  · unfold extract_evidence
    exact evidenceLoop_spec entries 0 h
  · intro fs hf
    unfold extract_evidence
    dsimp only
    rw [hf]
    simp [pyIter, evidenceLoop_spec entries 0 h]
    rfl

theorem C5_extract_evidence_witness :
    extract_evidence (.arr exampleEntries) = .ok (evidenceSpec exampleEntries) ∧
      evidenceSpec exampleEntries =
        [⟨1, "observation", "page loaded"⟩,
         ⟨2, "observation", "\x7b\"error\": \"submit button not found\"\x7d"⟩] :=
  ⟨(C5_extract_evidence_spec exampleEntries rfl).1, rfl⟩

/-- C6 (amended): a document that is neither a mapping nor a sequence
yields empty plan and evidence without raising; a mapping event with no
`name` contributes nothing to either extraction and raises nothing; a
mapping event with no `content` is skipped by plan extraction; but in
evidence extraction an event named "user" with no `content` is *not*
skipped — it produces a record with an empty description. -/
theorem C6_malformed_inputs :
    (∀ v : JValue, isObjB v = false → isArrB v = false →
      extract_plan v = .ok [] ∧ extract_evidence v = .ok []) ∧
    (∀ (l : List JValue) (fs : List (String × JValue)), lookupJ fs "name" = none →
      planLoop (.obj fs :: l) = planLoop l) ∧
    (∀ (l : List JValue) (fs : List (String × JValue)), lookupJ fs "content" = none →
      planLoop (.obj fs :: l) = planLoop l) ∧
    (∀ (k : Nat) (l : List JValue) (fs : List (String × JValue)), lookupJ fs "name" = none →
      evidenceLoop k (.obj fs :: l) = evidenceLoop (k + 1) l) ∧
    (∀ (k : Nat) (l : List JValue) (fs : List (String × JValue)),
      lookupJ fs "name" = some (.str "user") → lookupJ fs "content" = none →
      evidenceLoop k (.obj fs :: l) =
        Except.map (List.cons ⟨k, "observation", ""⟩) (evidenceLoop (k + 1) l)) := by
  refine ⟨?_, ?_, ?_, ?_, ?_⟩
  · intro v h1 h2
    cases v with
    | obj fs => simp [isObjB] at h1
    | arr xs => simp [isArrB] at h2
    | str s => exact ⟨rfl, rfl⟩
    | num x => exact ⟨rfl, rfl⟩
    | bool b => exact ⟨rfl, rfl⟩
    | null => exact ⟨rfl, rfl⟩
  · intro l fs h
    simp only [planLoop]
    rw [h]
    rfl
  · intro l fs h
    by_cases hn : eqStrOpt (lookupJ fs "name") "planner_agent" = true
    · simp only [planLoop]
      rw [if_pos hn, h]
    · simp only [planLoop]
      rw [if_neg hn]
  · intro k l fs h
    simp only [evidenceLoop]
    rw [h]
    rfl
  · intro k l fs h1 h2
    simp only [evidenceLoop]
    rw [h1, h2]
    cases hres : evidenceLoop (k + 1) l with
    | ok tl => rfl
    | error e => rfl

theorem C6_malformed_witness :
    extract_plan (.str "a bare string") = .ok [] ∧
      extract_evidence (.str "a bare string") = .ok [] :=
  C6_malformed_inputs.1 (.str "a bare string") rfl rfl

/-- C6 counterexample: an event named "user" with no content field is not
skipped by `extract_evidence` — it yields a record with an empty
description, so "skipped silently" is false for missing `content`. -/
theorem C6_missing_content_not_skipped :
    extract_evidence (.arr [.obj [("name", .str "user")]]) =
      .ok [⟨0, "observation", ""⟩] ∧
      ([(⟨0, "observation", ""⟩ : EvidenceRecord)] : List EvidenceRecord) ≠ [] :=
  ⟨rfl, by decide⟩
